import Mathlib

/-!
Verification development for the retrieval-and-orchestration backend
(`layer-1`): a shallow embedding, in Lean, of the chunker, the vector-store
result mapping, the retrieval engine (`advancedSearch`), the slash-command
parser, the tool validator and execute route, the rate limiter, and the
chat route handler, together with theorems settling the specification
claims about them.

Remote calls (Weaviate, Neo4j/Redis, Voyage, Claude, Cohere) are modelled
as deterministic oracles bundled in environment structures, and the Redis
cache as explicit state threaded through `advancedSearch`.  JavaScript
string primitives used by the source (`split`, `trim`, `startsWith`,
`slice`, `join`) are re-implemented by structural recursion on character
lists so that every definition evaluates by kernel reduction.
-/

namespace Layer1

/-- Model of JavaScript `String.prototype.split(sep)` for a one-character
separator: cuts at every occurrence of the separator, keeping empty pieces
(so `"a  b".split(" ") = ["a", "", "b"]`). -/
def jsSplitCharGo (sep : Char) : List Char → List Char → List String
  | [], acc => [String.mk acc.reverse]
  | c :: rest, acc =>
      if c = sep then String.mk acc.reverse :: jsSplitCharGo sep rest []
      else jsSplitCharGo sep rest (c :: acc)

/-- Split a string at every occurrence of one character, as JS `split`. -/
def jsSplitChar (sep : Char) (s : String) : List String :=
  jsSplitCharGo sep s.data []

/-- Model of JavaScript `String.prototype.startsWith`. -/
def jsStartsWith (s pre : String) : Bool :=
  pre.data.isPrefixOf s.data

/-- Model of JavaScript `String.prototype.trim` (whitespace stripped from
both ends). -/
def jsTrim (s : String) : String :=
  String.mk (((s.data.dropWhile Char.isWhitespace).reverse.dropWhile Char.isWhitespace).reverse)

/-- Model of JavaScript `String.prototype.slice(n)` (drop the first `n`
characters). -/
def jsSliceFrom (n : Nat) (s : String) : String :=
  String.mk (s.data.drop n)

/-- Model of JavaScript `Array.prototype.join(sep)` for string arrays. -/
def jsJoin (sep : String) : List String → String
  | [] => ""
  | [x] => x
  | x :: xs => x ++ sep ++ jsJoin sep xs

/-- State machine behind `text.split(/\n\n+/)`: `acc` is the reversed
buffer of the current piece and `run` counts the newlines read immediately
before the current position.  A run of two or more newlines is a
separator; a single newline belongs to the piece. -/
def splitBlanksGo : List Char → List Char → Nat → List String
  | [], acc, run =>
      if 2 ≤ run then [String.mk acc.reverse, ""]
      else [String.mk (acc.reverse ++ List.replicate run '\n')]
  | c :: rest, acc, run =>
      if c = '\n' then splitBlanksGo rest acc (run + 1)
      else if 2 ≤ run then String.mk acc.reverse :: splitBlanksGo rest [c] 0
      else splitBlanksGo rest (c :: (List.replicate run '\n' ++ acc)) 0

/-- Model of `text.split(/\n\n+/)` from `chunkText` in
`src/lib/ingest/chunker.ts`. -/
def splitBlankRuns (s : String) : List String :=
  splitBlanksGo s.data [] 0

/-- The paragraph list of `chunkText`:
`text.split(/\n\n+/).filter(p => p.trim())`. -/
def paragraphsOf (s : String) : List String :=
  (splitBlankRuns s).filter (fun p => jsTrim p != "")

/-- Paragraphs are joined back with a blank line:
`currentChunk.join('\n\n')`. -/
def joinParas (ps : List String) : String :=
  jsJoin "\n\n" ps

/-- Total character length of a list of paragraphs, the quantity the
source tracks in `currentLength` (separators are not counted there). -/
def paraLenSum (ps : List String) : Nat :=
  (ps.map String.length).sum

/-- Loop of `chunkText` (`src/lib/ingest/chunker.ts`, lines 77-109):
accumulate paragraphs into `currentChunk`; when appending the next
paragraph would push `currentLength` past `maxChars` and the chunk is
non-empty, emit the joined chunk and seed the next one with the last
paragraph when that paragraph fits in `overlapChars`. -/
def chunkTextGo (maxChars overlapChars : Nat) :
    List String → List String → Nat → List String
  | [], currentChunk, _ =>
      if currentChunk.isEmpty then [] else [joinParas currentChunk]
  | p :: rest, currentChunk, currentLength =>
      if currentLength + p.length > maxChars ∧ ¬currentChunk.isEmpty then
        let lastParagraph := currentChunk.getLastD ""
        if lastParagraph.length ≤ overlapChars then
          joinParas currentChunk ::
            chunkTextGo maxChars overlapChars rest [lastParagraph, p]
              (lastParagraph.length + p.length)
        else
          joinParas currentChunk ::
            chunkTextGo maxChars overlapChars rest [p] p.length
      else
        chunkTextGo maxChars overlapChars rest (currentChunk ++ [p])
          (currentLength + p.length)

/-- `chunkText(text, {maxTokens, overlap})` from
`src/lib/ingest/chunker.ts` (defaults in the source: `maxTokens = 600`,
`overlap = 100`; 1 token is approximated as 4 characters). -/
def chunkText (text : String) (maxTokens overlap : Nat) : List String :=
  chunkTextGo (maxTokens * 4) (overlap * 4) (paragraphsOf text) [] 0

/-- `estimateTokens` from `src/lib/ingest/chunker.ts`:
`Math.ceil(text.length / 4)`. -/
def estimateTokens (text : String) : Nat :=
  (text.length + 3) / 4

/-- A document section as in `types/index.ts` (`DocumentSection`). -/
structure DocumentSection where
  heading : String
  level : Nat
  content : String
deriving DecidableEq

/-- A parsed document (`types/index.ts`, `ParsedDocument`); the
front-matter metadata fields are not consulted by the chunker and are
omitted. -/
structure ParsedDocument where
  content : String
  sections : List DocumentSection
deriving DecidableEq

/-- Chunk metadata as produced by `chunkDocument`. -/
structure ChunkMetadata where
  source : String
  sectionHeading : String
  chunk_index : Nat
  total_chunks : Nat
deriving DecidableEq

/-- A chunk as produced by `chunkDocument` (`section` is a Lean keyword, so
that metadata field is called `sectionHeading` here). -/
structure Chunk where
  text : String
  metadata : ChunkMetadata
deriving DecidableEq

/-- Per-section loop of `chunkDocument`: each section is chunked by
`chunkText`, every emitted chunk text is prefixed with the section
heading, and `chunk_index` is the running position in the accumulated
list (`chunks.length` at push time). -/
def chunkDocumentGo (maxTokens overlap : Nat) (source : String) :
    List DocumentSection → List Chunk → List Chunk
  | [], chunks => chunks
  | s :: rest, chunks =>
      let sectionChunks := chunkText s.content maxTokens overlap
      chunkDocumentGo maxTokens overlap source rest
        (chunks ++ sectionChunks.enum.map fun it =>
          { text := s.heading ++ "\n\n" ++ it.2,
            metadata :=
              { source := source, sectionHeading := s.heading,
                chunk_index := chunks.length + it.1, total_chunks := 0 } })

/-- `chunkDocument(doc, source, {maxTokens, overlap})` from
`src/lib/ingest/chunker.ts`: chunk every section, then backfill
`total_chunks` with the final count. -/
def chunkDocument (doc : ParsedDocument) (source : String)
    (maxTokens overlap : Nat) : List Chunk :=
  let chunks := chunkDocumentGo maxTokens overlap source doc.sections []
  chunks.map fun c =>
    { c with metadata := { c.metadata with total_chunks := chunks.length } }

/-- Document with one heading and a single 8-character paragraph, used
against the chunk token-budget claim with `maxTokens = 1`, `overlap = 0`. -/
def docOversize : ParsedDocument :=
  { content := "aaaaaaaa",
    sections := [{ heading := "H", level := 1, content := "aaaaaaaa" }] }

/-- Metadata carried by a search result (`types/index.ts`,
`SearchResult.metadata`; `section` is a Lean keyword, hence
`sectionHeading`, and `type` is rendered `docType`). -/
structure ResultMetadata where
  source : String
  sectionHeading : String
  docType : String
  tags : List String
  chunk_index : Int
  created_at : String
deriving DecidableEq

/-- A search result (`types/index.ts`, `SearchResult`); scores are modelled
as rationals. -/
structure SearchResult where
  id : String
  text : String
  score : Rat
  metadata : ResultMetadata
deriving DecidableEq

/-- One row of the Weaviate GraphQL response consumed by `vectorSearch`
(`src/lib/db/weaviate.ts`): the stored properties plus the
`_additional { id distance }` block, whose `distance` may be absent. -/
structure WeaviateVectorRow where
  id : String
  text : String
  distance : Option Rat
  source : String
  sectionHeading : String
  docType : String
  tags : Option (List String)
  chunk_index : Int
  created_at : String
deriving DecidableEq

/-- Result mapping of `vectorSearch` (`src/lib/db/weaviate.ts`, lines
171-183), applied to the rows the store returned for the query:
`score = 1 - (chunk._additional.distance || 0)` and `tags = chunk.tags || []`. -/
def vectorSearchResults (rows : List WeaviateVectorRow) : List SearchResult :=
  rows.map fun c =>
    { id := c.id, text := c.text,
      score := 1 - c.distance.getD 0,
      metadata :=
        { source := c.source, sectionHeading := c.sectionHeading,
          docType := c.docType, tags := c.tags.getD [],
          chunk_index := c.chunk_index, created_at := c.created_at } }

/-- A concrete store row at the extreme cosine distance 2. -/
def rowDistanceTwo : WeaviateVectorRow :=
  { id := "c1", text := "t", distance := some 2, source := "a.md",
    sectionHeading := "A", docType := "documentation", tags := none,
    chunk_index := 0, created_at := "2024-01-01" }

/-- Fingerprint used by `deduplicateResults` (`hybrid.ts`):
the template string `source:chunk_index`. -/
def fingerprint (r : SearchResult) : String :=
  r.metadata.source ++ ":" ++ toString r.metadata.chunk_index

/-- Loop of `deduplicateResults`: keep a result when its fingerprint has
not been seen, first occurrence wins. -/
def dedupGo : List SearchResult → List String → List SearchResult
  | [], _ => []
  | r :: rest, seen =>
      if fingerprint r ∈ seen then dedupGo rest seen
      else r :: dedupGo rest (fingerprint r :: seen)

/-- `deduplicateResults` from the retrieval engine (`hybrid.ts`, lines
205-220). -/
def deduplicateResults (results : List SearchResult) : List SearchResult :=
  dedupGo results []

/-- Search filters accepted by `advancedSearch` (`types/index.ts`,
`SearchOptions.filters`). -/
structure SearchFilters where
  docType : Option (List String)
  tags : Option (List String)
  source : Option String
deriving DecidableEq

/-- A Weaviate `where` argument as the engine builds it: either the
caller's structured filters passed through, or the compound
`Or`-over-`source` filter constructed by the graph mode. -/
inductive WeaviateWhere where
  | user (f : SearchFilters)
  | orEqualSource (sources : List String)
deriving DecidableEq

/-- Search mode union (`types/index.ts`). -/
inductive SearchMode where
  | semantic | keyword | hybrid | graph
deriving DecidableEq

/-- `SearchOptions` (`types/index.ts`): optional fields model the
destructuring defaults `mode = 'hybrid'`, `limit = 10`, `rerank = true`
applied inside `advancedSearch`. -/
structure SearchOptions where
  query : String
  mode : Option SearchMode
  filters : Option SearchFilters
  limit : Option Nat
  rerank : Option Bool
deriving DecidableEq

/-- A `{source, section?}` record returned by `findRelatedDocuments`
(`src/lib/db/neo4j.ts`). -/
structure RelatedDoc where
  source : String
  sectionHeading : Option String
deriving DecidableEq

/-- Deterministic oracles standing for the remote services the retrieval
engine calls: the embedder (`getQueryEmbedding`), the LLM query rewriter
(`rewriteQuery`), the three Weaviate searches, the Cohere reranker
(which never throws: it returns its input on provider error), the LLM
entity extractor (likewise total), and the graph lookup
`findRelatedDocuments`.  Fixing one environment models a fixed store with
no concurrent writes. -/
structure RetrievalEnv where
  embedOf : String → List Rat
  rewriteOf : String → String
  vectorFor : List Rat → Nat → Option WeaviateWhere → List SearchResult
  bm25For : String → Nat → Option WeaviateWhere → List SearchResult
  hybridFor : String → List Rat → Rat → Nat → Option WeaviateWhere → List SearchResult
  rerankFor : String → List SearchResult → Nat → List SearchResult
  entitiesOf : String → List String
  relatedDocsOf : String → Nat → List RelatedDoc

/-- The Redis cache state visible to `advancedSearch`: the search-result
cache keyed by the (hash of the) query embedding, and the query-rewrite
cache keyed by the original query.  `hashVector` is SHA-256 of the
serialized vector and is modelled as injective keying by the vector
itself. -/
structure CacheState where
  searchCache : List Rat → Option (List SearchResult)
  rewriteCache : String → Option String

/-- `graphSearch` from `hybrid.ts` (lines 108-157): extract entities, fall
back to hybrid search (with the original query text) when there are no
entities or no related documents, otherwise vector-search restricted by an
`Or` filter over the related sources with limit `limit * 2`. -/
def graphSearch (env : RetrievalEnv) (query : String)
    (queryEmbedding : List Rat) (limit : Nat)
    (filters : Option WeaviateWhere) : List SearchResult :=
  let entities := env.entitiesOf query
  if entities.isEmpty then
    env.hybridFor query queryEmbedding (7/10) limit filters
  else
    let relatedDocs := (entities.map fun e => env.relatedDocsOf e 10).flatten
    if relatedDocs.isEmpty then
      env.hybridFor query queryEmbedding (7/10) limit filters
    else
      env.vectorFor queryEmbedding (limit * 2)
        (some (.orEqualSource (relatedDocs.map RelatedDoc.source)))

/-- `advancedSearch` from `hybrid.ts` (lines 12-79), with the cache state
made explicit: embed the query; on a search-cache hit return
`cached.slice(0, limit)`; otherwise rewrite the query (consulting and
filling the rewrite cache), over-fetch `limit * 3` candidates in the
requested mode, rerank when requested and over limit, deduplicate, cache
the deduplicated set, and return its first `limit` results. -/
def advancedSearch (env : RetrievalEnv) (st : CacheState)
    (options : SearchOptions) : List SearchResult × CacheState :=
  let query := options.query
  let mode := options.mode.getD .hybrid
  let filters := options.filters.map WeaviateWhere.user
  let limit := options.limit.getD 10
  let rerank := options.rerank.getD true
  let queryEmbedding := env.embedOf query
  match st.searchCache queryEmbedding with
  | some cached => (cached.take limit, st)
  | none =>
      let cachedRewrite := st.rewriteCache query
      let rewrittenQuery := cachedRewrite.getD (env.rewriteOf query)
      let st1 : CacheState :=
        match cachedRewrite with
        | some _ => st
        | none =>
            { st with rewriteCache := fun q =>
                if q = query then some rewrittenQuery else st.rewriteCache q }
      let retrievalLimit := limit * 3
      let candidates :=
        match mode with
        | .semantic => env.vectorFor queryEmbedding retrievalLimit filters
        | .keyword => env.bm25For rewrittenQuery retrievalLimit filters
        | .hybrid =>
            env.hybridFor rewrittenQuery queryEmbedding (7/10) retrievalLimit filters
        | .graph => graphSearch env query queryEmbedding retrievalLimit filters
      let reranked :=
        if rerank ∧ limit < candidates.length then
          env.rerankFor rewrittenQuery candidates limit
        else candidates
      let deduped := deduplicateResults reranked
      let st2 : CacheState :=
        { st1 with searchCache := fun v =>
            if v = queryEmbedding then some deduped else st1.searchCache v }
      (deduped.take limit, st2)

/-- An environment whose oracles all return trivial values, for concrete
witnesses. -/
def envTrivial : RetrievalEnv :=
  { embedOf := fun _ => [],
    rewriteOf := fun q => q,
    vectorFor := fun _ _ _ => [],
    bm25For := fun _ _ _ => [],
    hybridFor := fun _ _ _ _ _ => [],
    rerankFor := fun _ rs _ => rs,
    entitiesOf := fun _ => [],
    relatedDocsOf := fun _ _ => [] }

/-- The empty cache state. -/
def cacheEmpty : CacheState :=
  { searchCache := fun _ => none, rewriteCache := fun _ => none }

/-- A JavaScript value as it can appear in a tool-parameter map. -/
inductive JSValue where
  | undefined
  | null
  | boolean (b : Bool)
  | number (q : Rat)
  | string (s : String)
  | array (vs : List JSValue)

/-- JavaScript truthiness, as used by `!parameters[param.name]` in
`validateToolParameters` and by the argument checks of
`parseSlashCommand`: `undefined`, `null`, `false`, `0` and `""` are falsy. -/
def jsTruthy : JSValue → Bool
  | .undefined => false
  | .null => false
  | .boolean b => b
  | .number q => q != 0
  | .string s => s != ""
  | .array _ => true

/-- A parameter object, with JS property lookup: a missing key reads as
`undefined`. -/
def ParamMap : Type := List (String × JSValue)

/-- Property read `parameters[name]`. -/
def lookupParam (m : ParamMap) (name : String) : JSValue :=
  match m.find? (fun kv => kv.1 == name) with
  | some kv => kv.2
  | none => .undefined

/-- A declared tool parameter (`types/index.ts`, `ToolParameter`; the
human-readable description is not consulted by any modelled code and is
omitted). -/
structure ToolParameter where
  name : String
  paramType : String
  required : Bool
deriving DecidableEq

/-- A tool descriptor (`types/index.ts`, `Tool`); handlers and endpoints
perform I/O and are modelled by the flag `hasLocalHandler` plus the
optional endpoint, which the validation claims do not consult. -/
structure Tool where
  name : String
  command : String
  parameters : List ToolParameter
  hasLocalHandler : Bool
  hasEndpoint : Bool
deriving DecidableEq

/-- The `search_knowledge` descriptor from `registry.ts`. -/
def searchKnowledgeTool : Tool :=
  { name := "search_knowledge", command := "/search",
    parameters :=
      [ { name := "query", paramType := "string", required := true },
        { name := "mode", paramType := "string", required := false },
        { name := "limit", paramType := "number", required := false } ],
    hasLocalHandler := true, hasEndpoint := false }

/-- The tool registry `TOOLS` from `registry.ts`: names, slash commands
and declared parameters of the seven tools. -/
def TOOLS : List Tool :=
  [ searchKnowledgeTool,
    { name := "analyze_clos", command := "/clos",
      parameters :=
        [ { name := "input", paramType := "string", required := true },
          { name := "mode", paramType := "string", required := false },
          { name := "algorithms", paramType := "array", required := false } ],
      hasLocalHandler := false, hasEndpoint := true },
    { name := "game_34_analysis", command := "/chess",
      parameters :=
        [ { name := "situation", paramType := "string", required := true },
          { name := "constraints", paramType := "array", required := false } ],
      hasLocalHandler := false, hasEndpoint := true },
    { name := "generate_artifact", command := "/artifact",
      parameters :=
        [ { name := "category", paramType := "string", required := true },
          { name := "complexity", paramType := "string", required := false } ],
      hasLocalHandler := false, hasEndpoint := true },
    { name := "neural_child_interact", command := "/neural",
      parameters :=
        [ { name := "prompt", paramType := "string", required := true },
          { name := "network", paramType := "string", required := false } ],
      hasLocalHandler := false, hasEndpoint := true },
    { name := "hyde_search", command := "/hyde",
      parameters :=
        [ { name := "query", paramType := "string", required := true } ],
      hasLocalHandler := true, hasEndpoint := false },
    { name := "multi_query_search", command := "/mqsearch",
      parameters :=
        [ { name := "query", paramType := "string", required := true } ],
      hasLocalHandler := true, hasEndpoint := false } ]

/-- `getToolByName` from `registry.ts`. -/
def getToolByName (name : String) : Option Tool :=
  TOOLS.find? (fun t => t.name == name)

/-- `getToolByCommand` from `registry.ts`. -/
def getToolByCommand (command : String) : Option Tool :=
  TOOLS.find? (fun t => t.command == command)

/-- Outcome of `validateToolParameters` (`executor.ts`). -/
structure ValidationResult where
  valid : Bool
  errors : List String
deriving DecidableEq

/-- The message pushed for a missing required parameter. -/
def missingParamMsg (name : String) : String :=
  "Missing required parameter: " ++ name

/-- Error accumulation of `validateToolParameters`: for each declared
parameter, push an error when it is required and its supplied value is
falsy. -/
def requiredErrors (params : List ToolParameter) (parameters : ParamMap) :
    List String :=
  params.foldl
    (fun errs p =>
      if p.required ∧ jsTruthy (lookupParam parameters p.name) = false then
        errs ++ [missingParamMsg p.name]
      else errs)
    []

/-- `validateToolParameters` from `executor.ts` (lines 231-257). -/
def validateToolParameters (toolName : String) (parameters : ParamMap) :
    ValidationResult :=
  match getToolByName toolName with
  | none => { valid := false, errors := ["Tool \"" ++ toolName ++ "\" not found"] }
  | some tool =>
      let errors := requiredErrors tool.parameters parameters
      { valid := errors.isEmpty, errors := errors }

/-- Response of `POST /api/tools/execute` as far as the handler decides it
before performing I/O: the two 400 branches, and the dispatch to
`executeTool` on validated input. -/
inductive ToolsExecuteResponse where
  | toolNameRequired
  | invalidParameters (details : List String)
  | executed (tool : String) (parameters : ParamMap)

/-- The handler of `POST /api/tools/execute`
(`app/api/tools/execute/route.ts`): 400 `Tool name is required` when the
`tool` field is absent or falsy, 400 `Invalid parameters` with the
validation errors as `details` when validation fails, otherwise execution
with `parameters || {}`. -/
def toolsExecutePOST (tool : Option String) (parameters : Option ParamMap) :
    ToolsExecuteResponse :=
  match tool with
  | none => .toolNameRequired
  | some tname =>
      if tname = "" then .toolNameRequired
      else
        let params := parameters.getD []
        let validation := validateToolParameters tname params
        if validation.valid then .executed tname params
        else .invalidParameters validation.errors

/-- Argument map built by `parseSlashCommand`: JS object with string
values, a missing key reading as `undefined` (here `none`). -/
def Args : Type := String → Option String

/-- The empty argument object. -/
def emptyArgs : Args := fun _ => none

/-- Property write `args[k] = v`. -/
def setArg (args : Args) (k v : String) : Args :=
  fun q => if q = k then some v else args q

/-- JS truthiness of a possibly-undefined string (`undefined`, `null` and
`""` are falsy). -/
def jsStrTruthy : Option String → Bool
  | none => false
  | some s => s != ""

/-- JS `args[key] ? args[key] + ' ' + part : part`. -/
def jsAppendWord (old : Option String) (part : String) : String :=
  match old with
  | some s => if s ≠ "" then s ++ " " ++ part else part
  | none => part

/-- One positional token of `parseSlashCommand`: write into `input`, or
into `query` once `args.input` is truthy. -/
def positionalStep (args : Args) (part : String) : Args :=
  let key := if jsStrTruthy (args "input") then "query" else "input"
  setArg args key (jsAppendWord (args key) part)

/-- Flush of a pending flag: `if (currentFlag) args[currentFlag] =
currentValue.join(' ')`. -/
def flushFlag (args : Args) (currentFlag : Option String)
    (currentValue : List String) : Args :=
  if jsStrTruthy currentFlag then
    setArg args (currentFlag.getD "") (jsJoin " " currentValue)
  else args

/-- Main loop of `parseSlashCommand` (`registry.ts`, lines 227-252) over
the tokens after the command: `--`-tokens open a new flag (saving the
previous one), non-flag tokens extend the pending flag value or, with no
pending flag, are positional. -/
def parseArgsGo : List String → Args → Option String → List String → Args
  | [], args, currentFlag, currentValue => flushFlag args currentFlag currentValue
  | part :: rest, args, currentFlag, currentValue =>
      if jsStartsWith part "--" then
        let args1 := flushFlag args currentFlag currentValue
        let flagParts := jsSplitChar '=' (jsSliceFrom 2 part)
        let newFlag := flagParts.headD ""
        let newValue :=
          match flagParts.get? 1 with
          | some v => if v ≠ "" then [v] else []
          | none => []
        parseArgsGo rest args1 (some newFlag) newValue
      else if jsStrTruthy currentFlag then
        parseArgsGo rest args currentFlag (currentValue ++ [part])
      else
        parseArgsGo rest (positionalStep args part) currentFlag currentValue

/-- Result of `parseSlashCommand`. -/
structure ParsedCommand where
  command : String
  args : Args

/-- The flag name a `--`-token yields in `parseSlashCommand`:
`part.slice(2).split('=')[0]`. -/
def flagName (token : String) : String :=
  (jsSplitChar '=' (jsSliceFrom 2 token)).headD ""

/-- The initial flag value a `--`-token yields:
`flagParts[1] ? [flagParts[1]] : []` (pieces after a second `=` are
dropped, and `--flag=` seeds an empty value, exactly as the source). -/
def flagSeed (token : String) : List String :=
  match (jsSplitChar '=' (jsSliceFrom 2 token)).get? 1 with
  | some v => if v ≠ "" then [v] else []
  | none => []

/-- A flag group of a tokenized slash command: one `--`-token followed by
the non-flag tokens that extend its value. -/
structure FlagGroup where
  token : String
  vals : List String

/-- The token stream a list of flag groups occupies. -/
def flagTokens (groups : List FlagGroup) : List String :=
  (groups.map fun g => g.token :: g.vals).flatten

/-- Net effect of a sequence of flag groups on the argument object: each
group writes its joined value under its flag name. -/
def flagsApply (args : Args) : List FlagGroup → Args
  | [] => args
  | g :: gs =>
      flagsApply (setArg args (flagName g.token)
        (jsJoin " " (flagSeed g.token ++ g.vals))) gs

/-- Accumulation of positional tokens into the `query` argument (the JS
append `args[key] ? args[key] + ' ' + part : part` iterated). -/
def queryFold (acc : Option String) (ts : List String) : Option String :=
  ts.foldl (fun a t => some (jsAppendWord a t)) acc

/-- The `query` argument produced by a run of positional tokens: absent
for zero or one token, else the space-join of all tokens after the
first. -/
def posQueryValue (pos : List String) : Option String :=
  match pos with
  | [] => none
  | [_] => none
  | _ :: ts => some (jsJoin " " ts)

/-- `parseSlashCommand` from `registry.ts` (lines 211-255): `null` unless
the input starts with `/`; token 0 (split on single spaces) is the
command; the rest feed `parseArgsGo`. -/
def parseSlashCommand (input : String) : Option ParsedCommand :=
  if jsStartsWith input "/" then
    let parts := jsSplitChar ' ' input
    some { command := parts.headD "", args := parseArgsGo (parts.drop 1) emptyArgs none [] }
  else none

/-- Result record of `incrementRateLimit` (`src/lib/db/neo4j.ts`). -/
structure RateLimitResult where
  allowed : Bool
  remaining : Int
deriving DecidableEq

/-- `incrementRateLimit(identifier, limit, window)` from
`src/lib/db/neo4j.ts` (lines 494-517), with the two Redis calls modelled
as `Except` oracles: `INCR` yields the new count; when the count is 1 an
`EXPIRE` is issued; any error caught by the surrounding `try` yields
`{allowed: true, remaining: limit}`. -/
def incrementRateLimit (incrResult : Except String Int)
    (expireResult : Except String Unit) (limit : Int) : RateLimitResult :=
  match incrResult with
  | .error _ => { allowed := true, remaining := limit }
  | .ok count =>
      if count = 1 then
        match expireResult with
        | .error _ => { allowed := true, remaining := limit }
        | .ok _ => { allowed := count ≤ limit, remaining := max 0 (limit - count) }
      else { allowed := count ≤ limit, remaining := max 0 (limit - count) }

/-- Intent classification record returned by `classifyIntent`
(`src/lib/ai/claude.ts`); the call never throws because the source
catches all failures and returns the default
`{intent: search, needsSearch: true, searchMode: hybrid, confidence: 0.5}`. -/
structure IntentClassification where
  intent : String
  needsSearch : Bool
  searchMode : SearchMode
  suggestedTools : List String
  confidence : Rat

/-- A chat message as the route reads it from the request body. -/
structure ChatMessage where
  role : String
  content : String
deriving DecidableEq

/-- A formatted context item (`formatContextForClaude` in `hybrid.ts`). -/
structure ContextItem where
  text : String
  source : String
  sectionHeading : String
  score : Rat
deriving DecidableEq

/-- `formatContextForClaude` from `hybrid.ts` (lines 225-234). -/
def formatContextForClaude (results : List SearchResult) : List ContextItem :=
  results.map fun r =>
    { text := r.text, source := r.metadata.source,
      sectionHeading := r.metadata.sectionHeading, score := r.score }

/-- Oracles the chat route calls: the intent classifier (total, see
`IntentClassification`) and the retrieval invocation, which is fallible —
`advancedSearch` rethrows embedder and store errors. -/
structure ChatEnv where
  classify : String → IntentClassification
  search : SearchOptions → Except String (List SearchResult)

/-- Outcome of `POST /api/chat` as the handler decides it: 400 without
messages, the streaming response carrying the retrieved context that was
formatted into the system prompt, or the outer catch's
500 `Internal server error`. -/
inductive ChatResponse where
  | noMessages
  | streaming (context : List ContextItem)
  | serverError
deriving DecidableEq

/-- The retrieval options the chat route passes to `advancedSearch`:
`{query: userMessage, mode: intent.searchMode, limit: 8, rerank: true}`. -/
def chatSearchOptions (userMessage : String) (mode : SearchMode) : SearchOptions :=
  { query := userMessage, mode := some mode, filters := none,
    limit := some 8, rerank := some true }

/-- The chat route handler `POST /api/chat`: reject empty message lists,
classify the last message, retrieve context when `needsSearch`, and
stream.  The whole body sits in a single `try`; there is no inner catch
around the retrieval call, so a retrieval error reaches the outer catch,
which answers 500. -/
def chatPOST (env : ChatEnv) (messages : List ChatMessage) : ChatResponse :=
  match messages with
  | [] => .noMessages
  | m :: rest =>
      let userMessage := ((m :: rest).getLastD m).content
      let intent := env.classify userMessage
      if intent.needsSearch then
        match env.search (chatSearchOptions userMessage intent.searchMode) with
        | .error _ => .serverError
        | .ok results => .streaming (formatContextForClaude results)
      else .streaming (formatContextForClaude [])

/-- A chat environment in which every turn needs search and the retrieval
backend is down. -/
def chatEnvDown : ChatEnv :=
  { classify := fun _ =>
      { intent := "search", needsSearch := true, searchMode := .hybrid,
        suggestedTools := [], confidence := 1/2 },
    search := fun _ => .error "Weaviate unreachable" }

/-- Concrete search options: semantic mode, limit 5. -/
def optsSemantic5 : SearchOptions :=
  { query := "q", mode := some .semantic, filters := none,
    limit := some 5, rerank := none }

/-- Concrete search options over the same query text but different mode,
filters, limit and rerank setting. -/
def optsKeyword2 : SearchOptions :=
  { query := "q", mode := some .keyword,
    filters := some { docType := some ["research"], tags := none, source := none },
    limit := some 2, rerank := some false }

end Layer1

namespace Layer1

/-! ### Helper lemmas -/

/-- The error accumulator of `validateToolParameters` is the list of
messages of the declared required parameters whose supplied value is
falsy, in declaration order. -/
theorem requiredErrors_foldl_eq (m : ParamMap) (ps : List ToolParameter)
    (acc : List String) :
    List.foldl
        (fun errs p =>
          if p.required ∧ jsTruthy (lookupParam m p.name) = false then
            errs ++ [missingParamMsg p.name]
          else errs)
        acc ps
      = acc ++ ps.filterMap
          (fun p =>
            if p.required ∧ jsTruthy (lookupParam m p.name) = false then
              some (missingParamMsg p.name)
            else none) := by
  induction ps generalizing acc with
  | nil => simp
  | cons p rest ih =>
      by_cases h : p.required ∧ jsTruthy (lookupParam m p.name) = false
      · simp [h, ih]
      · simp [h, ih]

/-- `requiredErrors` as a `filterMap`. -/
theorem requiredErrors_eq (ps : List ToolParameter) (m : ParamMap) :
    requiredErrors ps m
      = ps.filterMap
          (fun p =>
            if p.required ∧ jsTruthy (lookupParam m p.name) = false then
              some (missingParamMsg p.name)
            else none) := by
  simpa using requiredErrors_foldl_eq m ps []

/-- Registry lookup by name recovers a registered tool. -/
theorem getToolByName_of_mem (t : Tool) (ht : t ∈ TOOLS) :
    getToolByName t.name = some t := by
  fin_cases ht <;> rfl

/-- Registered tools have non-empty names. -/
theorem toolName_ne_empty (t : Tool) (ht : t ∈ TOOLS) : t.name ≠ "" := by
  fin_cases ht <;> decide

/-- Shared core of the validation claims: whenever a declared required
parameter has a falsy supplied value, validation fails, the error list
contains its message, and the execute route answers with those errors as
`details`. -/
theorem validateCore (t : Tool) (ht : t ∈ TOOLS) (parameters : ParamMap)
    (p : ToolParameter) (hp : p ∈ t.parameters) (hreq : p.required = true)
    (hfl : jsTruthy (lookupParam parameters p.name) = false) :
    (validateToolParameters t.name parameters).valid = false ∧
      missingParamMsg p.name ∈ (validateToolParameters t.name parameters).errors ∧
      toolsExecutePOST (some t.name) (some parameters)
        = .invalidParameters (validateToolParameters t.name parameters).errors := by
  have hfind : getToolByName t.name = some t := getToolByName_of_mem t ht
  have hname : t.name ≠ "" := toolName_ne_empty t ht
  have herrs : (validateToolParameters t.name parameters).errors
      = t.parameters.filterMap
          (fun q =>
            if q.required ∧ jsTruthy (lookupParam parameters q.name) = false then
              some (missingParamMsg q.name)
            else none) := by
    simp [validateToolParameters, hfind, requiredErrors_eq]
  have hmem : missingParamMsg p.name
      ∈ (validateToolParameters t.name parameters).errors := by
    rw [herrs]
    exact List.mem_filterMap.mpr ⟨p, hp, by simp [hreq, hfl]⟩
  have hvalid : (validateToolParameters t.name parameters).valid = false := by
    have hshape : (validateToolParameters t.name parameters).valid
        = (validateToolParameters t.name parameters).errors.isEmpty := by
      simp [validateToolParameters, hfind]
    rw [hshape]
    cases herrlist : (validateToolParameters t.name parameters).errors with
    | nil => rw [herrlist] at hmem; cases hmem
    | cons a l => rfl
  refine ⟨hvalid, hmem, ?_⟩
  simp [toolsExecutePOST, hname, hvalid]

/-- Every validation error message names a declared required parameter of
the tool (so undeclared, excess parameters never cause an error). -/
theorem validate_errors_shape (t : Tool) (ht : t ∈ TOOLS)
    (parameters : ParamMap) :
    ∀ e ∈ (validateToolParameters t.name parameters).errors,
      ∃ q ∈ t.parameters, q.required = true ∧ e = missingParamMsg q.name := by
  have hfind : getToolByName t.name = some t := getToolByName_of_mem t ht
  intro e he
  rw [show (validateToolParameters t.name parameters).errors
      = requiredErrors t.parameters parameters from by
        simp [validateToolParameters, hfind]] at he
  rw [requiredErrors_eq] at he
  obtain ⟨q, hq, hqe⟩ := List.mem_filterMap.mp he
  by_cases hcond : q.required ∧ jsTruthy (lookupParam parameters q.name) = false
  · rw [if_pos hcond] at hqe
    exact ⟨q, hq, hcond.1, (Option.some_inj.mp hqe).symm⟩
  · rw [if_neg hcond] at hqe
    cases hqe

/-! ### Claim C7 — missing required tool parameters -/

/-- C7: for every registered tool, a declared required parameter that is
absent from the parameter map makes validation fail with the error
`Missing required parameter: <name>`, and `POST /api/tools/execute`
answers 400 `Invalid parameters` carrying exactly the validation errors
as `details`; moreover every validation error names a declared required
parameter, so parameters the tool does not declare never cause a
validation error. -/
theorem validate_missing_required_param (t : Tool) (ht : t ∈ TOOLS)
    (parameters : ParamMap) (p : ToolParameter) (hp : p ∈ t.parameters)
    (hreq : p.required = true)
    (habs : lookupParam parameters p.name = .undefined) :
    (validateToolParameters t.name parameters).valid = false ∧
      missingParamMsg p.name ∈ (validateToolParameters t.name parameters).errors ∧
      toolsExecutePOST (some t.name) (some parameters)
        = .invalidParameters (validateToolParameters t.name parameters).errors ∧
      ∀ e ∈ (validateToolParameters t.name parameters).errors,
        ∃ q ∈ t.parameters, q.required = true ∧ e = missingParamMsg q.name := by
  obtain ⟨h1, h2, h3⟩ :=
    validateCore t ht parameters p hp hreq (by rw [habs]; rfl)
  exact ⟨h1, h2, h3, validate_errors_shape t ht parameters⟩

/-- C7 witness: `search_knowledge` with an empty parameter map. -/
theorem validate_missing_required_param_witness :
    (validateToolParameters searchKnowledgeTool.name []).valid = false ∧
      missingParamMsg "query"
        ∈ (validateToolParameters searchKnowledgeTool.name []).errors ∧
      toolsExecutePOST (some searchKnowledgeTool.name) (some [])
        = .invalidParameters (validateToolParameters searchKnowledgeTool.name []).errors ∧
      ∀ e ∈ (validateToolParameters searchKnowledgeTool.name []).errors,
        ∃ q ∈ searchKnowledgeTool.parameters,
          q.required = true ∧ e = missingParamMsg q.name :=
  validate_missing_required_param searchKnowledgeTool (by decide) []
    { name := "query", paramType := "string", required := true }
    (by decide) rfl rfl

/-! ### Claim C9 — truthiness makes falsy values count as missing -/

/-- C9: required-parameter checking uses JS truthiness, so a required
parameter supplied as the number 0, the empty string, or `false` is
treated as missing: validation fails with
`Missing required parameter: <name>` and the execute route rejects the
call with those errors, although the parameter is present. -/
theorem validate_falsy_required_param (t : Tool) (ht : t ∈ TOOLS)
    (parameters : ParamMap) (p : ToolParameter) (hp : p ∈ t.parameters)
    (hreq : p.required = true)
    (hfalsy : lookupParam parameters p.name = .number 0 ∨
        lookupParam parameters p.name = .string "" ∨
        lookupParam parameters p.name = .boolean false) :
    (validateToolParameters t.name parameters).valid = false ∧
      missingParamMsg p.name ∈ (validateToolParameters t.name parameters).errors ∧
      toolsExecutePOST (some t.name) (some parameters)
        = .invalidParameters (validateToolParameters t.name parameters).errors := by
  refine validateCore t ht parameters p hp hreq ?_
  rcases hfalsy with h | h | h <;> simp [h, jsTruthy]

/-- C9 witness: `search_knowledge` with `query` present but equal to the
empty string. -/
theorem validate_falsy_required_param_witness :
    (validateToolParameters searchKnowledgeTool.name [("query", .string "")]).valid
        = false ∧
      missingParamMsg "query"
        ∈ (validateToolParameters searchKnowledgeTool.name
            [("query", .string "")]).errors ∧
      toolsExecutePOST (some searchKnowledgeTool.name)
          (some [("query", .string "")])
        = .invalidParameters
            (validateToolParameters searchKnowledgeTool.name
              [("query", .string "")]).errors :=
  validate_falsy_required_param searchKnowledgeTool (by decide)
    [("query", .string "")]
    { name := "query", paramType := "string", required := true }
    (by decide) rfl (Or.inr (Or.inl rfl))

/-! ### Claim C10 — the rate limiter fails open -/

/-- C10: when the Redis `INCR` raises, the surrounding catch makes
`incrementRateLimit` return `{allowed: true, remaining: limit}`, so cache
unavailability never rejects a request. -/
theorem incrementRateLimit_fails_open (e : String)
    (expireResult : Except String Unit) (limit : Int) :
    incrementRateLimit (.error e) expireResult limit
      = { allowed := true, remaining := limit } := rfl

/-! ### Claim C3 — vector-search score range -/

/-- C3 counterexample: a store row at cosine distance 2 — inside the
claimed distance range [0,2] — is mapped by `vectorSearch` to score
`1 - 2 = -1`, which is not in [0,1]. -/
theorem vectorSearch_score_unit_range_cex :
    (∀ c ∈ [rowDistanceTwo], ∀ d : Rat, c.distance = some d → 0 ≤ d ∧ d ≤ 2) ∧
      ∃ r ∈ vectorSearchResults [rowDistanceTwo],
        ¬ (0 ≤ r.score ∧ r.score ≤ 1) := by
  constructor
  · intro c hc d hd
    rw [List.mem_singleton] at hc
    subst hc
    rw [show rowDistanceTwo.distance = some 2 from rfl] at hd
    obtain rfl := Option.some_inj.mp hd.symm
    norm_num
  · refine ⟨_, List.mem_map_of_mem _ (List.mem_singleton.mpr rfl), ?_⟩
    simp [rowDistanceTwo]

/-- C3 amended: for store distances in [0,2] the score `1 - distance`
computed by `vectorSearch` (with a missing distance read as 0) lies in
[-1,1] — not in [0,1] as claimed. -/
theorem vectorSearch_score_bounds (rows : List WeaviateVectorRow)
    (h : ∀ c ∈ rows, ∀ d : Rat, c.distance = some d → 0 ≤ d ∧ d ≤ 2) :
    ∀ r ∈ vectorSearchResults rows, -1 ≤ r.score ∧ r.score ≤ 1 := by
  intro r hr
  obtain ⟨c, hc, rfl⟩ := List.mem_map.mp hr
  cases hdist : c.distance with
  | none => simp [hdist]
  | some d =>
      obtain ⟨h0, h2⟩ := h c hc d hdist
      simp only [hdist, Option.getD_some]
      constructor <;> linarith

/-- C3 witness: the amended bounds at the concrete distance-2 row. -/
theorem vectorSearch_score_bounds_witness :
    ∃ r ∈ vectorSearchResults [rowDistanceTwo], -1 ≤ r.score ∧ r.score ≤ 1 := by
  refine ⟨_, List.mem_map_of_mem _ (List.mem_singleton.mpr rfl), ?_⟩
  refine vectorSearch_score_bounds [rowDistanceTwo] ?_ _
    (List.mem_map_of_mem _ (List.mem_singleton.mpr rfl))
  intro c hc d hd
  rw [List.mem_singleton] at hc
  subst hc
  rw [show rowDistanceTwo.distance = some 2 from rfl] at hd
  obtain rfl := Option.some_inj.mp hd.symm
  norm_num

/-! ### Claim C1 — retrieval errors and the chat turn -/

/-- C1 counterexample: with intent classification requiring search and the
retrieval invocation raising, the chat handler answers the 500
`Internal server error` branch instead of proceeding to stream without
context: there is no inner catch around `advancedSearch`. -/
theorem chatPOST_retrieval_error_cex :
    (chatEnvDown.classify "hi").needsSearch = true ∧
      chatEnvDown.search
          (chatSearchOptions "hi" (chatEnvDown.classify "hi").searchMode)
        = .error "Weaviate unreachable" ∧
      chatPOST chatEnvDown [{ role := "user", content := "hi" }] = .serverError ∧
      chatPOST chatEnvDown [{ role := "user", content := "hi" }]
        ≠ .streaming [] :=
  ⟨rfl, rfl, rfl, by decide⟩

/-- C1 amended: when intent classification sets `needsSearch` and the
retrieval invocation raises, the error propagates to the route's outer
catch and the request is aborted with the 500 response; the orchestrator
does not proceed to stream without context. -/
theorem chatPOST_retrieval_error_aborts (env : ChatEnv) (m : ChatMessage)
    (rest : List ChatMessage) (e : String)
    (hns : (env.classify ((m :: rest).getLastD m).content).needsSearch = true)
    (herr : env.search
        (chatSearchOptions ((m :: rest).getLastD m).content
          (env.classify ((m :: rest).getLastD m).content).searchMode)
      = .error e) :
    chatPOST env (m :: rest) = .serverError := by
  simp only [List.getLastD_eq_getLast?] at hns herr
  simp [chatPOST, hns, herr]

/-- C1 witness: the amended behaviour at the concrete failing
environment. -/
theorem chatPOST_retrieval_error_aborts_witness :
    chatPOST chatEnvDown [{ role := "user", content := "hi" }] = .serverError :=
  chatPOST_retrieval_error_aborts chatEnvDown
    { role := "user", content := "hi" } [] "Weaviate unreachable" rfl rfl

/-! ### Deduplication lemmas -/

/-- No result kept by the dedup loop has a fingerprint that was already
seen. -/
theorem dedupGo_not_seen (l : List SearchResult) :
    ∀ (seen : List String), ∀ r ∈ dedupGo l seen, fingerprint r ∉ seen := by
  induction l with
  | nil => intro seen r hr; cases hr
  | cons a rest ih =>
      intro seen r hr
      by_cases ha : fingerprint a ∈ seen
      · rw [show dedupGo (a :: rest) seen = dedupGo rest seen from by
            simp [dedupGo, ha]] at hr
        exact ih seen r hr
      · rw [show dedupGo (a :: rest) seen
            = a :: dedupGo rest (fingerprint a :: seen) from by
              simp [dedupGo, ha]] at hr
        rcases List.mem_cons.mp hr with rfl | hr
        · exact ha
        · intro hmem
          exact ih (fingerprint a :: seen) r hr (List.mem_cons_of_mem _ hmem)

/-- The dedup loop yields pairwise-distinct fingerprints. -/
theorem dedupGo_pairwise (l : List SearchResult) :
    ∀ (seen : List String),
      (dedupGo l seen).Pairwise (fun a b => fingerprint a ≠ fingerprint b) := by
  induction l with
  | nil => intro seen; exact List.Pairwise.nil
  | cons a rest ih =>
      intro seen
      by_cases ha : fingerprint a ∈ seen
      · rw [show dedupGo (a :: rest) seen = dedupGo rest seen from by
            simp [dedupGo, ha]]
        exact ih seen
      · rw [show dedupGo (a :: rest) seen
            = a :: dedupGo rest (fingerprint a :: seen) from by
              simp [dedupGo, ha]]
        refine List.Pairwise.cons ?_ (ih _)
        intro b hb heq
        exact dedupGo_not_seen rest _ b hb (heq ▸ List.mem_cons_self _ _)

/-- `deduplicateResults` yields pairwise-distinct fingerprints. -/
theorem deduplicateResults_pairwise (l : List SearchResult) :
    (deduplicateResults l).Pairwise (fun a b => fingerprint a ≠ fingerprint b) :=
  dedupGo_pairwise l []

/-- Distinct fingerprints force distinct `(source, chunk_index)` pairs. -/
theorem fingerprint_ne_of_pair_ne (a b : SearchResult)
    (h : fingerprint a ≠ fingerprint b) :
    (a.metadata.source, a.metadata.chunk_index)
      ≠ (b.metadata.source, b.metadata.chunk_index) := by
  intro hpair
  apply h
  have hsrc : a.metadata.source = b.metadata.source := congrArg Prod.fst hpair
  have hidx : a.metadata.chunk_index = b.metadata.chunk_index :=
    congrArg Prod.snd hpair
  simp [fingerprint, hsrc, hidx]

/-- On a search-cache hit, `advancedSearch` returns the cached set
truncated to `limit` and leaves the state untouched. -/
theorem advancedSearch_cacheHit (env : RetrievalEnv) (st : CacheState)
    (o : SearchOptions) (L : List SearchResult)
    (h : st.searchCache (env.embedOf o.query) = some L) :
    advancedSearch env st o = (L.take (o.limit.getD 10), st) := by
  unfold advancedSearch
  simp [h]

/-- After any `advancedSearch` call, the search cache holds an entry for
the query's embedding. -/
theorem advancedSearch_cache_isSome (env : RetrievalEnv) (st : CacheState)
    (o : SearchOptions) :
    (((advancedSearch env st o).2).searchCache (env.embedOf o.query)).isSome
      = true := by
  unfold advancedSearch
  cases h : st.searchCache (env.embedOf o.query) with
  | some cached => simp [h]
  | none => simp [h]

/-! ### Claim C5 — retrieval idempotence -/

/-- C5: for a fixed environment (fixed stores, embedder, rewriter,
reranker: no concurrent writes), running `advancedSearch` twice with
identical options returns identical ordered result lists — the second
call is served from the result cache written by the first and returns the
cached set truncated to `limit`, which is exactly the first call's
return value. -/
theorem advancedSearch_idempotent (env : RetrievalEnv) (st : CacheState)
    (options : SearchOptions) :
    (advancedSearch env (advancedSearch env st options).2 options).1
      = (advancedSearch env st options).1 := by
  unfold advancedSearch
  cases h : st.searchCache (env.embedOf options.query) with
  | some cached => simp [h]
  | none => simp [h]

/-! ### Claim C6 — deduplication of returned results -/

/-- C6: provided every cached result set is itself
fingerprint-deduplicated (the engine only ever caches deduplicated sets),
no two results returned by `advancedSearch` share `(source, chunk_index)`:
the final candidate set is deduplicated before it is cached and truncated
to `limit`. -/
theorem advancedSearch_deduplicated (env : RetrievalEnv) (st : CacheState)
    (options : SearchOptions)
    (hwf : ∀ v L, st.searchCache v = some L →
        L.Pairwise (fun a b => fingerprint a ≠ fingerprint b)) :
    ((advancedSearch env st options).1).Pairwise
      (fun a b =>
        (a.metadata.source, a.metadata.chunk_index)
          ≠ (b.metadata.source, b.metadata.chunk_index)) ∧
    ∀ v L, ((advancedSearch env st options).2).searchCache v = some L →
      L.Pairwise (fun a b => fingerprint a ≠ fingerprint b) := by
  constructor
  · have hfp : ((advancedSearch env st options).1).Pairwise
        (fun a b => fingerprint a ≠ fingerprint b) := by
      unfold advancedSearch
      cases h : st.searchCache (env.embedOf options.query) with
      | some cached =>
          simpa [h] using
            ((hwf _ cached h).sublist (List.take_sublist _ _))
      | none =>
          simpa [h] using
            ((deduplicateResults_pairwise _).sublist (List.take_sublist _ _))
    exact hfp.imp (fun h => fingerprint_ne_of_pair_ne _ _ h)
  · unfold advancedSearch
    cases h : st.searchCache (env.embedOf options.query) with
    | some cached => simpa [h] using hwf
    | none =>
        cases hrw : st.rewriteCache options.query with
        | some rw0 =>
            simp only [h, hrw]
            intro v L hvL
            by_cases hv : v = env.embedOf options.query
            · simp only [hv, if_pos rfl] at hvL
              obtain rfl := Option.some_inj.mp hvL.symm
              exact deduplicateResults_pairwise _
            · simp only [if_neg hv] at hvL
              exact hwf v L hvL
        | none =>
            simp only [h, hrw]
            intro v L hvL
            by_cases hv : v = env.embedOf options.query
            · simp only [hv, if_pos rfl] at hvL
              obtain rfl := Option.some_inj.mp hvL.symm
              exact deduplicateResults_pairwise _
            · simp only [if_neg hv] at hvL
              exact hwf v L hvL

/-- C6 witness: the deduplication property at a trivial environment and
the empty cache. -/
theorem advancedSearch_deduplicated_witness :
    ((advancedSearch envTrivial cacheEmpty optsSemantic5).1).Pairwise
      (fun a b =>
        (a.metadata.source, a.metadata.chunk_index)
          ≠ (b.metadata.source, b.metadata.chunk_index)) ∧
    ∀ v L, ((advancedSearch envTrivial cacheEmpty optsSemantic5).2).searchCache v
        = some L →
      L.Pairwise (fun a b => fingerprint a ≠ fingerprint b) :=
  advancedSearch_deduplicated envTrivial cacheEmpty optsSemantic5
    (fun v L h => by simp [cacheEmpty] at h)

/-! ### Claim C8 — the result cache is keyed by the embedding only -/

/-- C8: the search-result cache key depends only on the query embedding.
Whenever two calls' queries embed identically, the second call returns
the set the first call left in the cache, truncated to the second call's
`limit` — even when mode, filters and rerank differ between the calls. -/
theorem advancedSearch_cache_keyed_by_embedding (env : RetrievalEnv)
    (st : CacheState) (o1 o2 : SearchOptions)
    (hemb : env.embedOf o2.query = env.embedOf o1.query) :
    ∃ L, ((advancedSearch env st o1).2).searchCache (env.embedOf o1.query)
        = some L ∧
      (advancedSearch env (advancedSearch env st o1).2 o2).1
        = L.take (o2.limit.getD 10) := by
  obtain ⟨L, hL⟩ :=
    Option.isSome_iff_exists.mp (advancedSearch_cache_isSome env st o1)
  refine ⟨L, hL, ?_⟩
  have hscr : ((advancedSearch env st o1).2).searchCache (env.embedOf o2.query)
      = some L := by rw [hemb]; exact hL
  rw [advancedSearch_cacheHit env _ o2 L hscr]

/-- C8 witness: same query, different mode, filters, limit and rerank. -/
theorem advancedSearch_cache_keyed_by_embedding_witness :
    ∃ L, ((advancedSearch envTrivial cacheEmpty optsSemantic5).2).searchCache
        (envTrivial.embedOf optsSemantic5.query) = some L ∧
      (advancedSearch envTrivial
          (advancedSearch envTrivial cacheEmpty optsSemantic5).2 optsKeyword2).1
        = L.take (optsKeyword2.limit.getD 10) :=
  advancedSearch_cache_keyed_by_embedding envTrivial cacheEmpty
    optsSemantic5 optsKeyword2 rfl

/-! ### Chunker lemmas -/

/-- `getLastD` of any list lies in the list extended by the default. -/
theorem getLastD_mem_cons_default {α : Type} (a : α) (l : List α) :
    l.getLastD a ∈ a :: l := by
  induction l generalizing a with
  | nil => simp
  | cons b t ih =>
      rw [List.getLastD_cons]
      exact List.mem_cons_of_mem _ (ih b)

/-- `getLastD` of a non-empty list is a member. -/
theorem getLastD_mem_of_ne_nil {α : Type} (l : List α) (d : α) (h : l ≠ []) :
    l.getLastD d ∈ l := by
  cases l with
  | nil => exact absurd rfl h
  | cons a t =>
      rw [List.getLastD_cons]
      exact getLastD_mem_cons_default a t

/-- Invariant of the `chunkText` loop: every emitted chunk is the
blank-line join of a non-empty list of pool paragraphs whose total
character count stays within `maxChars + overlapChars`, provided every
pool paragraph fits in `maxChars` on its own. -/
theorem chunkTextGo_budget (maxChars overlapChars : Nat) (pool : List String)
    (hpool : ∀ p ∈ pool, p.length ≤ maxChars) :
    ∀ (src : List String), (∀ p ∈ src, p ∈ pool) →
      ∀ (cur : List String) (curLen : Nat), (∀ p ∈ cur, p ∈ pool) →
        paraLenSum cur ≤ maxChars + overlapChars → curLen = paraLenSum cur →
        ∀ chunk ∈ chunkTextGo maxChars overlapChars src cur curLen,
          ∃ paras, paras ≠ [] ∧ (∀ p ∈ paras, p ∈ pool) ∧
            chunk = joinParas paras ∧
            paraLenSum paras ≤ maxChars + overlapChars := by
  intro src
  induction src with
  | nil =>
      intro _ cur curLen hcur hsum _ chunk hchunk
      simp only [chunkTextGo] at hchunk
      split at hchunk
      · cases hchunk
      · rename_i hne
        refine ⟨cur, ?_, hcur, (List.mem_singleton.mp hchunk), hsum⟩
        intro hnil
        exact hne (by simp [hnil])
  | cons p rest ih =>
      intro hsrc cur curLen hcur hsum hlen chunk hchunk
      have hp : p ∈ pool := hsrc p (List.mem_cons_self p rest)
      have hplen : p.length ≤ maxChars := hpool p hp
      have hrest : ∀ q ∈ rest, q ∈ pool :=
        fun q hq => hsrc q (List.mem_cons_of_mem p hq)
      simp only [chunkTextGo] at hchunk
      split at hchunk
      · rename_i hcond
        have hcurne : cur ≠ [] := by
          intro hnil
          exact hcond.2 (by simp [hnil])
        have hlast : cur.getLastD "" ∈ pool :=
          hcur _ (getLastD_mem_of_ne_nil cur "" hcurne)
        split at hchunk
        · rename_i hfit
          rcases List.mem_cons.mp hchunk with rfl | hrec
          · exact ⟨cur, hcurne, hcur, rfl, hsum⟩
          · refine ih hrest [cur.getLastD "", p] _ ?_ ?_ ?_ chunk hrec
            · intro q hq
              rcases List.mem_cons.mp hq with rfl | hq
              · exact hlast
              · rcases List.mem_singleton.mp hq with rfl
                exact hp
            · have : paraLenSum [cur.getLastD "", p]
                  = (cur.getLastD "").length + p.length := by
                simp [paraLenSum]
              omega
            · simp [paraLenSum]
        · rcases List.mem_cons.mp hchunk with rfl | hrec
          · exact ⟨cur, hcurne, hcur, rfl, hsum⟩
          · refine ih hrest [p] _ ?_ ?_ ?_ chunk hrec
            · intro q hq
              rcases List.mem_singleton.mp hq with rfl
              exact hp
            · have : paraLenSum [p] = p.length := by simp [paraLenSum]
              omega
            · simp [paraLenSum]
      · rename_i hcond
        have hsplit : curLen + p.length ≤ maxChars ∨ cur = [] := by
          by_cases hc : curLen + p.length > maxChars
          · right
            by_contra hne
            exact hcond ⟨hc, by simpa using hne⟩
          · left
            omega
        have happ : paraLenSum (cur ++ [p]) = paraLenSum cur + p.length := by
          simp [paraLenSum]
        refine ih hrest (cur ++ [p]) _ ?_ ?_ ?_ chunk hchunk
        · intro q hq
          rcases List.mem_append.mp hq with hq | hq
          · exact hcur q hq
          · rcases List.mem_singleton.mp hq with rfl
            exact hp
        · have h0 : paraLenSum ([] : List String) = 0 := rfl
          rcases hsplit with hle | hnil
          · omega
          · subst hnil
            omega
        · omega

/-! ### Claim C2 — chunk token budget -/

/-- C2 counterexample: with `maxTokens = 1` and `overlap = 0`, a document
whose single section holds one 8-character paragraph yields the chunk
`"H\n\naaaaaaaa"` with estimated token count 3 > 1 + 0: a paragraph larger
than the budget is emitted whole, and the heading prefix is not counted,
so the claimed bound fails. -/
theorem chunkDocument_token_budget_cex :
    ¬ (∀ c ∈ chunkDocument docOversize "a.md" 1 0,
        estimateTokens c.text ≤ 1 + 0) := by decide

/-- C2 amended: the budget the loop actually maintains concerns the
paragraph content of a chunk, not its full text: when every
blank-line-separated paragraph of the text fits in `maxTokens * 4`
characters, each chunk emitted by `chunkText` is the blank-line join of
paragraphs of the text whose total estimated token count — heading prefix
and the two-character paragraph separators excluded — is at most
`maxTokens + overlap`. -/
theorem chunkText_paragraph_token_budget (text : String)
    (maxTokens overlap : Nat)
    (hpara : ∀ p ∈ paragraphsOf text, p.length ≤ maxTokens * 4) :
    ∀ chunk ∈ chunkText text maxTokens overlap,
      ∃ paras, paras ≠ [] ∧ (∀ p ∈ paras, p ∈ paragraphsOf text) ∧
        chunk = joinParas paras ∧
        (paraLenSum paras + 3) / 4 ≤ maxTokens + overlap := by
  intro chunk hchunk
  simp only [chunkText] at hchunk
  obtain ⟨paras, hne, hmem, hjoin, hsum⟩ :=
    chunkTextGo_budget (maxTokens * 4) (overlap * 4) (paragraphsOf text) hpara
      (paragraphsOf text) (fun _ hp => hp) [] 0 (by simp)
      (by simp [paraLenSum]) (by simp [paraLenSum]) chunk hchunk
  exact ⟨paras, hne, hmem, hjoin, by omega⟩

/-- C2 witness: the amended bound at a concrete two-paragraph section. -/
theorem chunkText_paragraph_token_budget_witness :
    ∃ paras, paras ≠ [] ∧ (∀ p ∈ paras, p ∈ paragraphsOf "ab\n\ncd") ∧
      "ab\n\ncd" = joinParas paras ∧ (paraLenSum paras + 3) / 4 ≤ 1 + 0 :=
  chunkText_paragraph_token_budget "ab\n\ncd" 1 0 (by decide)
    "ab\n\ncd" (by decide)

/-! ### Slash-command parser lemmas -/

/-- With no pending flag, a non-flag token is consumed as a positional
token. -/
theorem parseArgsGo_positional_step (t : String) (rest : List String)
    (args : Args) (ht : jsStartsWith t "--" = false) :
    parseArgsGo (t :: rest) args none []
      = parseArgsGo rest (positionalStep args t) none [] := by
  simp [parseArgsGo, ht, jsStrTruthy]

/-- A prefix of non-flag tokens is folded by `positionalStep`. -/
theorem parseArgsGo_positional_run (xs : List String) (rest : List String)
    (args : Args) (hxs : ∀ t ∈ xs, jsStartsWith t "--" = false) :
    parseArgsGo (xs ++ rest) args none []
      = parseArgsGo rest (xs.foldl positionalStep args) none [] := by
  induction xs generalizing args with
  | nil => simp
  | cons t ts ih =>
      rw [List.cons_append,
        parseArgsGo_positional_step t (ts ++ rest) args
          (hxs t (List.mem_cons_self t ts)),
        ih (positionalStep args t)
          (fun u hu => hxs u (List.mem_cons_of_mem t hu)),
        List.foldl_cons]

/-- Once `args.input` is truthy, a positional token appends to `query`
and leaves `input` unchanged. -/
theorem positionalStep_of_truthy (args : Args) (t : String)
    (h : jsStrTruthy (args "input") = true) :
    (positionalStep args t) "input" = args "input" ∧
      (positionalStep args t) "query" = some (jsAppendWord (args "query") t) := by
  constructor <;> simp [positionalStep, h, setArg]

/-- Folding positional tokens over an argument object with truthy `input`
leaves `input` unchanged and accumulates the tokens into `query`. -/
theorem posFold_values (ts : List String) :
    ∀ (args : Args), jsStrTruthy (args "input") = true →
      (ts.foldl positionalStep args) "input" = args "input" ∧
        (ts.foldl positionalStep args) "query" = queryFold (args "query") ts := by
  induction ts with
  | nil => intro args _; exact ⟨rfl, rfl⟩
  | cons t ts ih =>
      intro args h
      obtain ⟨hi, hq⟩ := positionalStep_of_truthy args t h
      have h2 : jsStrTruthy ((positionalStep args t) "input") = true := by
        rw [hi]; exact h
      obtain ⟨ih1, ih2⟩ := ih (positionalStep args t) h2
      refine ⟨by rw [List.foldl_cons, ih1, hi], ?_⟩
      rw [List.foldl_cons, ih2, hq]
      rfl

/-- The `query` accumulation is a space-join, starting from a non-empty
accumulator. -/
theorem queryFold_some (ts : List String) :
    ∀ (acc : String), acc ≠ "" →
      queryFold (some acc) ts = some (jsJoin " " (acc :: ts)) := by
  induction ts with
  | nil => intro acc _; rfl
  | cons t ts ih =>
      intro acc h
      have hne : acc ++ " " ++ t ≠ "" := by
        intro hc
        have h1 : (acc ++ " " ++ t).length = acc.length + 1 + t.length := by
          simp [String.length_append, show String.length " " = 1 from rfl]
        rw [hc] at h1
        simp at h1
        omega
      have hstep : queryFold (some acc) (t :: ts)
          = queryFold (some (acc ++ " " ++ t)) ts := by
        show queryFold (some (jsAppendWord (some acc) t)) ts
          = queryFold (some (acc ++ " " ++ t)) ts
        rw [show jsAppendWord (some acc) t = acc ++ " " ++ t from by
          simp [jsAppendWord, h]]
      rw [hstep, ih _ hne]
      congr 1
      cases ts with
      | nil => rfl
      | cons u us => simp [jsJoin, String.append_assoc]

/-- Tokens following a truthy pending flag extend its value list. -/
theorem parseArgsGo_vals (vals : List String) (rest : List String)
    (args : Args) (f : String) (hf : f ≠ "")
    (hvals : ∀ t ∈ vals, jsStartsWith t "--" = false) :
    ∀ (cv : List String),
      parseArgsGo (vals ++ rest) args (some f) cv
        = parseArgsGo rest args (some f) (cv ++ vals) := by
  induction vals with
  | nil => intro cv; simp
  | cons t ts ih =>
      intro cv
      have ht := hvals t (List.mem_cons_self t ts)
      rw [List.cons_append,
        show parseArgsGo (t :: (ts ++ rest)) args (some f) cv
          = parseArgsGo (ts ++ rest) args (some f) (cv ++ [t]) from by
            simp [parseArgsGo, ht, jsStrTruthy, hf],
        ih (fun u hu => hvals u (List.mem_cons_of_mem t hu)) (cv ++ [t])]
      simp

/-- Processing flag groups from a truthy pending flag flushes that flag
and then applies every group. -/
theorem parseArgsGo_flags (groups : List FlagGroup) :
    ∀ (args : Args) (f : String), f ≠ "" → ∀ (cv : List String),
      (∀ g ∈ groups, jsStartsWith g.token "--" = true ∧
        flagName g.token ≠ "" ∧ ∀ t ∈ g.vals, jsStartsWith t "--" = false) →
      parseArgsGo (flagTokens groups) args (some f) cv
        = flagsApply (setArg args f (jsJoin " " cv)) groups := by
  induction groups with
  | nil =>
      intro args f hf cv _
      simp [flagTokens, parseArgsGo, flushFlag, jsStrTruthy, hf, flagsApply]
  | cons g gs ih =>
      intro args f hf cv hg
      obtain ⟨hgt, hgn, hgv⟩ := hg g (List.mem_cons_self g gs)
      rw [show flagTokens (g :: gs) = g.token :: (g.vals ++ flagTokens gs) from by
            simp [flagTokens],
        show parseArgsGo (g.token :: (g.vals ++ flagTokens gs)) args (some f) cv
          = parseArgsGo (g.vals ++ flagTokens gs)
              (flushFlag args (some f) cv) (some (flagName g.token))
              (flagSeed g.token) from by
            simp [parseArgsGo, hgt, flagName, flagSeed],
        parseArgsGo_vals g.vals (flagTokens gs) _ (flagName g.token) hgn hgv
          (flagSeed g.token),
        ih _ (flagName g.token) hgn _
          (fun g2 h2 => hg g2 (List.mem_cons_of_mem g h2))]
      simp [flagsApply, flushFlag, jsStrTruthy, hf]

/-- Entering the flag groups with no pending flag applies every group. -/
theorem parseArgsGo_flags_entry (groups : List FlagGroup) (args : Args)
    (hg : ∀ g ∈ groups, jsStartsWith g.token "--" = true ∧
      flagName g.token ≠ "" ∧ ∀ t ∈ g.vals, jsStartsWith t "--" = false) :
    parseArgsGo (flagTokens groups) args none [] = flagsApply args groups := by
  cases groups with
  | nil => simp [flagTokens, parseArgsGo, flushFlag, jsStrTruthy, flagsApply]
  | cons g gs =>
      obtain ⟨hgt, hgn, hgv⟩ := hg g (List.mem_cons_self g gs)
      rw [show flagTokens (g :: gs) = g.token :: (g.vals ++ flagTokens gs) from by
            simp [flagTokens],
        show parseArgsGo (g.token :: (g.vals ++ flagTokens gs)) args none []
          = parseArgsGo (g.vals ++ flagTokens gs) args
              (some (flagName g.token)) (flagSeed g.token) from by
            simp [parseArgsGo, hgt, flushFlag, jsStrTruthy, flagName, flagSeed],
        parseArgsGo_vals g.vals (flagTokens gs) args (flagName g.token) hgn hgv
          (flagSeed g.token),
        parseArgsGo_flags gs args (flagName g.token) hgn _
          (fun g2 h2 => hg g2 (List.mem_cons_of_mem g h2))]
      simp [flagsApply]

/-- Flag application does not touch keys that are no group's flag name. -/
theorem flagsApply_ne (groups : List FlagGroup) :
    ∀ (args : Args) (k : String), (∀ g ∈ groups, flagName g.token ≠ k) →
      flagsApply args groups k = args k := by
  induction groups with
  | nil => intro args k _; rfl
  | cons g gs ih =>
      intro args k h
      rw [flagsApply, ih _ k (fun u hu => h u (List.mem_cons_of_mem g hu))]
      exact if_neg (fun hc => h g (List.mem_cons_self g gs) hc.symm)

/-- With pairwise-distinct flag names, each group's flag ends up holding
its seeded-plus-appended value, space-joined. -/
theorem flagsApply_mem (groups : List FlagGroup)
    (hnodup : (groups.map fun g => flagName g.token).Nodup) :
    ∀ (args : Args) (g : FlagGroup), g ∈ groups →
      flagsApply args groups (flagName g.token)
        = some (jsJoin " " (flagSeed g.token ++ g.vals)) := by
  induction groups with
  | nil => intro _ g hg; cases hg
  | cons h0 gs ih =>
      intro args g hg
      have hnodup' := hnodup
      rw [List.map_cons, List.nodup_cons] at hnodup'
      rcases List.mem_cons.mp hg with rfl | hmem
      · rw [flagsApply,
          flagsApply_ne gs _ (flagName g.token) (fun g2 h2 hc =>
            hnodup'.1
              (hc ▸ List.mem_map_of_mem (fun g3 => flagName g3.token) h2))]
        simp [setArg]
      · exact ih hnodup'.2 _ g hmem

/-! ### Claim C4 — slash-command argument folding -/

/-- C4 counterexample: in `/search alpha beta` the two contiguous
positional tokens are not folded into a single `input` argument
`"alpha beta"`; the code puts only the first token in `input` and the
second in `query`. -/
theorem parseSlashCommand_fold_cex :
    (parseSlashCommand "/search alpha beta").map
        (fun pc => (pc.command, pc.args "input", pc.args "query"))
      = some ("/search", some "alpha", some "beta") ∧
    (parseSlashCommand "/search alpha beta").map (fun pc => pc.args "input")
      ≠ some (some "alpha beta") := by
  constructor <;> decide

/-- C4 amended: token 0 is the command and `--flag=value` / `--flag value …`
sequences become named arguments (values space-joined), but of the
contiguous positional tokens only the first becomes the `input` argument;
every later positional token is appended to the `query` argument. -/
theorem parseSlashCommand_tokens (input cmd : String) (pos : List String)
    (groups : List FlagGroup)
    (hstart : jsStartsWith input "/" = true)
    (hsplit : jsSplitChar ' ' input = cmd :: (pos ++ flagTokens groups))
    (hpos : ∀ t ∈ pos, jsStartsWith t "--" = false ∧ t ≠ "")
    (hflags : ∀ g ∈ groups, jsStartsWith g.token "--" = true ∧
      flagName g.token ≠ "" ∧ ∀ t ∈ g.vals, jsStartsWith t "--" = false)
    (hnodup : (groups.map fun g => flagName g.token).Nodup)
    (hdisj : ∀ g ∈ groups, flagName g.token ≠ "input" ∧
      flagName g.token ≠ "query") :
    ∃ pc, parseSlashCommand input = some pc ∧ pc.command = cmd ∧
      pc.args "input" = pos.head? ∧
      pc.args "query" = posQueryValue pos ∧
      ∀ g ∈ groups, pc.args (flagName g.token)
        = some (jsJoin " " (flagSeed g.token ++ g.vals)) := by
  have hpc : parseSlashCommand input
      = some { command := cmd,
               args := parseArgsGo (pos ++ flagTokens groups) emptyArgs none [] } := by
    simp [parseSlashCommand, hstart, hsplit]
  have hgo : parseArgsGo (pos ++ flagTokens groups) emptyArgs none []
      = flagsApply (pos.foldl positionalStep emptyArgs) groups := by
    rw [parseArgsGo_positional_run pos _ emptyArgs (fun t ht => (hpos t ht).1),
      parseArgsGo_flags_entry groups _ hflags]
  have hA : (pos.foldl positionalStep emptyArgs) "input" = pos.head? ∧
      (pos.foldl positionalStep emptyArgs) "query" = posQueryValue pos := by
    cases pos with
    | nil => exact ⟨rfl, rfl⟩
    | cons t ts =>
        have hstep : positionalStep emptyArgs t = setArg emptyArgs "input" t := by
          simp [positionalStep, emptyArgs, jsStrTruthy, jsAppendWord]
        have htruthy : jsStrTruthy ((setArg emptyArgs "input" t) "input")
            = true := by
          simp [setArg, jsStrTruthy, (hpos t (List.mem_cons_self t ts)).2]
        obtain ⟨h1, h2⟩ := posFold_values ts (setArg emptyArgs "input" t) htruthy
        rw [List.foldl_cons, hstep]
        have hqnone : (setArg emptyArgs "input" t) "query" = none := by
          simp [setArg, emptyArgs]
        constructor
        · rw [h1]; simp [setArg]
        · rw [h2, hqnone]
          cases ts with
          | nil => rfl
          | cons u us =>
              have hq0 : queryFold none (u :: us) = queryFold (some u) us := rfl
              rw [hq0, queryFold_some us u
                (hpos u (List.mem_cons_of_mem t (List.mem_cons_self u us))).2]
              rfl
  refine ⟨_, hpc, rfl, ?_, ?_, ?_⟩
  · show (parseArgsGo (pos ++ flagTokens groups) emptyArgs none []) "input"
      = pos.head?
    rw [hgo, flagsApply_ne groups _ "input" (fun g hg => (hdisj g hg).1), hA.1]
  · show (parseArgsGo (pos ++ flagTokens groups) emptyArgs none []) "query"
      = posQueryValue pos
    rw [hgo, flagsApply_ne groups _ "query" (fun g hg => (hdisj g hg).2), hA.2]
  · intro g hg
    show (parseArgsGo (pos ++ flagTokens groups) emptyArgs none [])
        (flagName g.token) = _
    rw [hgo, flagsApply_mem groups hnodup _ g hg]

/-- C4 witness: the amended behaviour on
`/search a b c --mode=semantic --k v w`. -/
theorem parseSlashCommand_tokens_witness :
    ∃ pc, parseSlashCommand "/search a b c --mode=semantic --k v w" = some pc ∧
      pc.command = "/search" ∧
      pc.args "input" = (["a", "b", "c"] : List String).head? ∧
      pc.args "query" = posQueryValue ["a", "b", "c"] ∧
      ∀ g ∈ [FlagGroup.mk "--mode=semantic" [], FlagGroup.mk "--k" ["v", "w"]],
        pc.args (flagName g.token)
          = some (jsJoin " " (flagSeed g.token ++ g.vals)) :=
  parseSlashCommand_tokens "/search a b c --mode=semantic --k v w" "/search"
    ["a", "b", "c"] [FlagGroup.mk "--mode=semantic" [], FlagGroup.mk "--k" ["v", "w"]]
    (by decide) (by decide) (by decide) (by decide) (by decide) (by decide)

end Layer1

